import Mathlib

/-!
Verification of the slimclaw agent core: canonical conversation model,
context preparer (history limiting, tool-result truncation, orphan cleanup),
provider adapters, tool dispatch, the agent loop, and the session journal.
Each definition is a shallow embedding of the corresponding TypeScript
function; theorems settle the specification's claims about them.
-/

namespace SlimClaw

/-! ## Canonical conversation model (session.ts) -/

/-- Stand-in for the `Record(string, unknown)` structured tool input: an
association list of string keys and values.  Claims never inspect its
internals; it only needs decidable equality. -/
def ToolInput : Type := List (String × String)

instance : DecidableEq ToolInput := by
  unfold ToolInput
  infer_instance

/-- `ContentBlock` from session.ts: text, tool_use and tool_result blocks. -/
inductive ContentBlock : Type where
  | text (text : String)
  | tool_use (id : String) (name : String) (input : ToolInput)
  | tool_result (tool_use_id : String) (content : String)
  deriving DecidableEq

/-- Message role: `"user" | "assistant"`. -/
inductive Role : Type where
  | user
  | assistant
  deriving DecidableEq

/-- Message content: a plain string or an ordered block sequence. -/
inductive MContent : Type where
  | str (s : String)
  | blocks (bs : List ContentBlock)
  deriving DecidableEq

/-- `Message` from session.ts. -/
structure Message : Type where
  role : Role
  content : MContent
  deriving DecidableEq

/-- Bool test: is this message's role `user`? -/
def isUser (m : Message) : Bool :=
  match m.role with
  | .user => true
  | .assistant => false

/-- Bool test: is this message's role `assistant`? -/
def isAssistant (m : Message) : Bool :=
  match m.role with
  | .user => false
  | .assistant => true

/-- Number of user messages in a list (the "turn" count of context.ts). -/
def countUserMessages (ms : List Message) : Nat :=
  ms.countP isUser

/-! ## Context preparer constants (context.ts) -/

def MIN_KEEP_CHARS : Nat := 2000

def HARD_MAX_TOOL_RESULT_CHARS : Int := 400000

/-! ## Text truncation (`truncateText` in context.ts, identical to
`truncateToolResult` in tools.ts) -/

/-- `keepChars = Math.max(MIN_KEEP_CHARS, maxChars - 100)`; always at least
`MIN_KEEP_CHARS`, so the `Int.toNat` coercion is exact. -/
def keepCharsFor (maxChars : Int) : Nat :=
  (max (MIN_KEEP_CHARS : Int) (maxChars - 100)).toNat

/-- `text.lastIndexOf("\n", pos)`: the largest index `i ≤ pos` whose
character is a newline, if any. -/
def lastNewlinePos (cs : List Char) (pos : Nat) : Option Nat :=
  ((((cs.take (pos + 1)).enum).filter (fun p => p.2 = '\n')).map (fun p => p.1)).getLast?

/-- The cut position chosen by `truncateText`: the last newline at or before
`keepChars` if it lies strictly past 80% of `keepChars`, else `keepChars`. -/
def cutPoint (text : String) (maxChars : Int) : Nat :=
  let keep := keepCharsFor maxChars
  let searchEnd := keep * 4 / 5
  match lastNewlinePos text.toList keep with
  | some i => if searchEnd < i then i else keep
  | none => keep

/-- The appended truncation marker. -/
def truncMarker (cutAt : Nat) (total : Nat) : String :=
  "\n\n[Truncated: showing first " ++ toString cutAt ++ " of " ++
    toString total ++ " characters]"

/-- `truncateText` from context.ts: pass through short text, otherwise keep a
prefix ending at `cutPoint` and append the marker. -/
def truncateText (text : String) (maxChars : Int) : String :=
  if (text.length : Int) ≤ maxChars then text
  else
    String.mk (text.toList.take (cutPoint text maxChars)) ++
      truncMarker (cutPoint text maxChars) text.length

/-- `truncateToolResult` from tools.ts is character-for-character the same
function as `truncateText` (with the same MIN_KEEP_CHARS floor). -/
def truncateToolResult (text : String) (maxChars : Int) : String :=
  truncateText text maxChars

/-! ## Layer 1: `limitHistoryTurns` (context.ts)

The source scans backward counting user messages and cuts immediately before
the `(maxTurns+1)`-th most recent user message; the retained slice is exactly
the longest suffix containing at most `maxTurns` user messages, which is what
`limitAux` computes front-to-back. -/

def limitAux (k : Int) : List Message → List Message
  | [] => []
  | m :: rest =>
    if (countUserMessages (m :: rest) : Int) ≤ k then m :: rest
    else limitAux k rest

def limitHistoryTurns (messages : List Message) (maxTurns : Int) : List Message :=
  if maxTurns ≤ 0 then messages else limitAux maxTurns messages

/-! ## Layer 2: `truncateToolResults` (context.ts) -/

/-- Bool test: is this block a tool_result? -/
def isToolResultBlock (b : ContentBlock) : Bool :=
  match b with
  | .tool_result _ _ => true
  | _ => false

/-- Truncate one block if it is an oversized tool_result. -/
def truncateBlock (maxChars : Int) (b : ContentBlock) : ContentBlock :=
  match b with
  | .tool_result tid c =>
    if maxChars < (c.length : Int) then .tool_result tid (truncateText c maxChars)
    else .tool_result tid c
  | b => b

/-- Per-message step of layer 2: a user message with block content holding
at least one tool_result gets its oversized tool_result contents truncated;
every other message passes through. -/
def truncateMsg (maxChars : Int) (msg : Message) : Message :=
  match msg.role, msg.content with
  | .user, .blocks bs =>
    if bs.any isToolResultBlock then ⟨.user, .blocks (bs.map (truncateBlock maxChars))⟩
    else msg
  | _, _ => msg

/-- `truncateToolResults`: map the per-message step over the list. -/
def truncateToolResults (messages : List Message) (maxChars : Int) : List Message :=
  messages.map (truncateMsg maxChars)

/-! ## Cleanup: `removeOrphanedToolResults` (context.ts) -/

/-- tool_use ids contributed by one message: nonempty only for assistant
messages with block content. -/
def assistantToolUseIds (m : Message) : List String :=
  match m.role, m.content with
  | .assistant, .blocks bs =>
    bs.filterMap fun b =>
      match b with
      | .tool_use id _ _ => some id
      | _ => none
  | _, _ => []

/-- All tool_use ids found in assistant messages of the list. -/
def collectToolUseIds (ms : List Message) : List String :=
  (ms.map assistantToolUseIds).flatten

/-- One block survives orphan filtering iff it is not a tool_result or its
reference id is among the collected tool_use ids. -/
def keepBlock (ids : List String) (b : ContentBlock) : Bool :=
  match b with
  | .tool_result tid _ => ids.contains tid
  | _ => true

/-- Per-message step of orphan cleanup: filter a user message's blocks,
dropping the message when nothing remains; other messages pass through. -/
def keepOrphanFiltered (ids : List String) (m : Message) : Option Message :=
  match m.role, m.content with
  | .user, .blocks bs =>
    let filtered := bs.filter (keepBlock ids)
    if filtered.isEmpty then none else some ⟨.user, .blocks filtered⟩
  | _, _ => some m

/-- `removeOrphanedToolResults` from context.ts. -/
def removeOrphanedToolResults (ms : List Message) : List Message :=
  ms.filterMap (keepOrphanFiltered (collectToolUseIds ms))

/-! ## `prepareContext` (context.ts) -/

/-- The two context-management limits read from the configuration. -/
structure ContextConfig : Type where
  maxHistoryTurns : Int
  maxToolResultChars : Int
  deriving DecidableEq

/-- `prepareContext`: the ordered three-stage pipeline. -/
def prepareContext (messages : List Message) (config : ContextConfig) : List Message :=
  let r1 := limitHistoryTurns messages config.maxHistoryTurns
  let r2 := truncateToolResults r1 (min config.maxToolResultChars HARD_MAX_TOOL_RESULT_CHARS)
  removeOrphanedToolResults r2

/-! ## Stream events and tools (agent.ts) -/

/-- The canonical `StreamEvent` union. -/
inductive StreamEvent : Type where
  | text (text : String)
  | tool_use (id : String) (name : String) (input : ToolInput)
  | tool_start (name : String) (input : ToolInput)
  | tool_end (name : String) (result : String)
  | message_stop (stop_reason : String)
  deriving DecidableEq

/-- Outcome of awaiting a tool executor: a result string, or a thrown
exception carrying its rendered message. -/
inductive ExecOutcome : Type where
  | ok (result : String)
  | threw (msg : String)
  deriving DecidableEq

/-- The catalog-facing part of a tool definition. -/
structure ToolDef : Type where
  name : String
  description : String
  deriving DecidableEq

/-- A catalog entry: definition plus executor. -/
structure Tool : Type where
  definition : ToolDef
  execute : ToolInput → ExecOutcome

/-- `executeTool` from agent.ts: unknown names yield a synthesized error
string; a throwing executor is caught and rendered as an error string. -/
def executeTool (name : String) (input : ToolInput) (tools : List Tool) : String :=
  match tools.find? (fun t => t.definition.name == name) with
  | none => "Error: Unknown tool \"" ++ name ++ "\""
  | some t =>
    match t.execute input with
    | .ok r => r
    | .threw e => "Error executing tool \"" ++ name ++ "\": " ++ e

/-! ## Provider adapters (agent.ts)

Each adapter is modelled as a pure function from the upstream wire data of
one response to the ordered canonical event list its async generator yields. -/

/-- A `content_block_delta` payload of the Anthropic stream. -/
inductive AnthDelta : Type where
  | text_delta (text : String)
  | input_json_delta (partialJson : String)
  | otherDelta
  deriving DecidableEq

/-- The final message the Anthropic SDK resolves after the stream closes. -/
structure AnthFinal : Type where
  content : List ContentBlock
  stop_reason : Option String
  deriving DecidableEq

/-- `AnthropicClient.stream`: re-emit text deltas, then one tool_use event
per tool_use block of the final message, then one message_stop whose reason
is the upstream stop reason, defaulting to `"end_turn"` when null. -/
def anthropicStream (deltas : List AnthDelta) (finalMessage : AnthFinal) : List StreamEvent :=
  (deltas.filterMap fun d =>
    match d with
    | .text_delta t => some (.text t)
    | _ => none) ++
  (finalMessage.content.filterMap fun b =>
    match b with
    | .tool_use id name input => some (.tool_use id name input)
    | _ => none) ++
  [.message_stop (finalMessage.stop_reason.getD "end_turn")]

/-- One incremental tool-call fragment of an OpenAI chunk. -/
structure OAIToolCallDelta : Type where
  index : Nat
  id : Option String
  name : Option String
  args : Option String
  deriving DecidableEq

/-- The delta of one OpenAI chunk (`chunk.choices[0].delta`). -/
structure OAIDelta : Type where
  content : Option String
  tool_calls : List OAIToolCallDelta
  deriving DecidableEq

/-- One OpenAI stream chunk; `delta = none` models a chunk with no
`choices[0].delta`, which the source skips entirely (finish reason included). -/
structure OAIChunk : Type where
  delta : Option OAIDelta
  finish_reason : Option String
  deriving DecidableEq

/-- Buffered per-index state of one incremental tool call. -/
structure OAIAcc : Type where
  id : String
  name : String
  args : String
  deriving DecidableEq

/-- `if (v) field = v` on a string-valued delta field: empty strings are
falsy in the source, so they leave the field unchanged. -/
def truthyUpd (cur : String) (v : Option String) : String :=
  match v with
  | some s => if s = "" then cur else s
  | none => cur

/-- Apply one fragment to an existing buffered tool call. -/
def updAcc (a : OAIAcc) (tc : OAIToolCallDelta) : OAIAcc :=
  { id := truthyUpd a.id tc.id
    name := truthyUpd a.name tc.name
    args := a.args ++ (tc.args.getD "") }

/-- Apply one fragment to the index-keyed buffer, inserting a fresh entry
(in insertion order, as a JS Map iterates) when the index is new. -/
def updateToolCalls (m : List (Nat × OAIAcc)) (tc : OAIToolCallDelta) : List (Nat × OAIAcc) :=
  if m.any (fun p => p.1 == tc.index) then
    m.map fun p => if p.1 == tc.index then (p.1, updAcc p.2 tc) else p
  else
    m ++ [(tc.index, updAcc ⟨tc.id.getD "", tc.name.getD "", ""⟩ tc)]

/-- Accumulated state while consuming OpenAI chunks. -/
structure OAIState : Type where
  events : List StreamEvent
  toolCalls : List (Nat × OAIAcc)
  stopReason : String
  deriving DecidableEq

/-- Process one OpenAI chunk: emit a text event for truthy delta content,
fold the tool-call fragments into the buffer, and map the finish reason
(`"tool_calls"` to `"tool_use"`, `"stop"` to `"end_turn"`, others ignored). -/
def oaiStep (st : OAIState) (c : OAIChunk) : OAIState :=
  match c.delta with
  | none => st
  | some d =>
    let st1 :=
      match d.content with
      | some t => if t = "" then st else { st with events := st.events ++ [StreamEvent.text t] }
      | none => st
    let st2 := { st1 with toolCalls := d.tool_calls.foldl updateToolCalls st1.toolCalls }
    match c.finish_reason with
    | some "tool_calls" => { st2 with stopReason := "tool_use" }
    | some "stop" => { st2 with stopReason := "end_turn" }
    | _ => st2

/-- `OpenAIClient.stream`: text events in order, then one tool_use event per
buffered call (insertion order) with best-effort argument parsing
(`parseArgs`, the stand-in for `JSON.parse`; failure yields the empty
input), then one message_stop. -/
def openaiStream (parseArgs : String → Option ToolInput) (chunks : List OAIChunk) :
    List StreamEvent :=
  let st := chunks.foldl oaiStep ⟨[], [], "end_turn"⟩
  st.events ++
    (st.toolCalls.map fun p =>
      StreamEvent.tool_use p.2.id p.2.name ((parseArgs p.2.args).getD [])) ++
    [.message_stop st.stopReason]

/-! ## The agent loop (`agentTurn` in agent.ts)

The adapter's behaviour over the whole turn is supplied as data: one list of
canonical stream events per round.  `runRounds` is the loop body: collect the
round's events, append one assistant message, stop when the round requested
no tools, otherwise dispatch every requested call in order and append one
user message holding the ordered tool_result blocks. -/

/-- The text accumulated over a round (`currentText`). -/
def roundText (evs : List StreamEvent) : String :=
  evs.foldl
    (fun s e =>
      match e with
      | .text t => s ++ t
      | _ => s)
    ""

/-- The tool_use events buffered over a round, in emission order. -/
def roundToolUses (evs : List StreamEvent) : List (String × String × ToolInput) :=
  evs.filterMap fun e =>
    match e with
    | .tool_use id name input => some (id, name, input)
    | _ => none

/-- The text events of a round, re-emitted outward unchanged. -/
def roundTextEvents (evs : List StreamEvent) : List StreamEvent :=
  evs.filter fun e =>
    match e with
    | .text _ => true
    | _ => false

/-- The assistant message's content blocks: round text first (when
nonempty), then the tool_use blocks in emission order. -/
def assistantBlocks (txt : String) (tus : List (String × String × ToolInput)) :
    List ContentBlock :=
  (if txt = "" then [] else [.text txt]) ++
    tus.map fun tu => .tool_use tu.1 tu.2.1 tu.2.2

/-- A lone text block collapses to plain string content
(`contentBlocks.length === 1 && contentBlocks[0].type === "text"`). -/
def assistantContent (bs : List ContentBlock) : MContent :=
  match bs with
  | [ContentBlock.text t] => .str t
  | bs => .blocks bs

/-- The outward events of dispatching one round's tool calls: a
tool_start/tool_end pair per call, in request order. -/
def dispatchEvents (tools : List Tool) (tus : List (String × String × ToolInput)) :
    List StreamEvent :=
  tus.flatMap fun tu =>
    [.tool_start tu.2.1 tu.2.2, .tool_end tu.2.1 (executeTool tu.2.1 tu.2.2 tools)]

/-- The ordered tool_result blocks of one round's dispatch. -/
def dispatchResults (tools : List Tool) (tus : List (String × String × ToolInput)) :
    List ContentBlock :=
  tus.map fun tu => .tool_result tu.1 (executeTool tu.2.1 tu.2.2 tools)

/-- The loop of `agentTurn`, driven by the per-round event lists.  Returns
the transcript and the outward event sequence.  The terminal stop reason is
collected by the source into a variable that is never read again, so it does
not appear in the state. -/
def runRounds (tools : List Tool) :
    List (List StreamEvent) → List Message → List StreamEvent →
    List Message × List StreamEvent
  | [], msgs, evs => (msgs, evs)
  | r :: rest, msgs, evs =>
    let txt := roundText r
    let tus := roundToolUses r
    let msgs1 := msgs ++ [⟨.assistant, assistantContent (assistantBlocks txt tus)⟩]
    let evs1 := evs ++ roundTextEvents r
    if tus.isEmpty then (msgs1, evs1)
    else
      runRounds tools rest
        (msgs1 ++ [⟨.user, .blocks (dispatchResults tools tus)⟩])
        (evs1 ++ dispatchEvents tools tus)

/-- `agentTurn`: append the user message, then run the loop. -/
def agentTurn (rounds : List (List StreamEvent)) (tools : List Tool)
    (session : List Message) (userMessage : String) :
    List Message × List StreamEvent :=
  runRounds tools rounds (session ++ [⟨.user, .str userMessage⟩]) []

/-! ## Session journal (session.ts)

The JSONL session file is modelled as its list of lines; `appendMessage`
writes one encoded message-entry line, `loadSession` decodes every line,
silently skipping blank or unparseable ones and non-message entries.  The
platform JSON codec is abstracted as an encode function and a decode
function; the round-trip theorem is parametric in any codec for which
decoding inverts encoding. -/

/-- A line of the session JSONL journal. -/
inductive JournalEntry : Type where
  | session (id : String) (createdAt : Nat)
  | message (role : Role) (content : MContent) (timestamp : Nat)
  deriving DecidableEq

/-- `!line.trim()`: the line holds only whitespace. -/
def isBlank (l : String) : Bool :=
  l.toList.all fun c => c.isWhitespace

/-- Keep only `type === "message"` entries, rebuilding the message. -/
def entryToMessage (e : JournalEntry) : Option Message :=
  match e with
  | .message r c _ => some ⟨r, c⟩
  | _ => none

/-- `loadSession`'s line loop: skip blank lines, skip lines that fail to
decode, keep the messages of message entries in order. -/
def loadMessages (dec : String → Option JournalEntry) (lines : List String) : List Message :=
  lines.filterMap fun l =>
    if isBlank l then none
    else
      match dec l with
      | some e => entryToMessage e
      | none => none

/-- The journal lines of a session created by `createSession` (one header
line) followed by one `appendMessage` line per appended message. -/
def sessionLines (enc : JournalEntry → String) (sid : String) (createdAt : Nat)
    (appends : List (Message × Nat)) : List String :=
  enc (.session sid createdAt) ::
    appends.map fun p => enc (.message p.1.role p.1.content p.2)

/-! ## A concrete injective journal codec

A simple length-prefixed encoding of `JournalEntry` into characters, with a
verified decoder; it instantiates the codec parameters of the round-trip
theorem at a concrete input. -/

/-- Length-prefixed string payload: `n` hash marks, a semicolon, then the
`n` characters verbatim. -/
def encStrC (s : String) : List Char :=
  List.replicate s.length '#' ++ ';' :: s.data

/-- Decode a length-prefixed string payload, returning it with the rest. -/
def decStrC (l : List Char) : Option (String × List Char) :=
  let n := (l.takeWhile fun c => c = '#').length
  match l.drop n with
  | ';' :: rest =>
    if n ≤ rest.length then some (String.mk (rest.take n), rest.drop n) else none
  | _ => none

/-- Unary-encoded natural number: `n` hash marks then a semicolon. -/
def encNatC (n : Nat) : List Char :=
  List.replicate n '#' ++ [';']

/-- Decode a unary natural number. -/
def decNatC (l : List Char) : Option (Nat × List Char) :=
  let n := (l.takeWhile fun c => c = '#').length
  match l.drop n with
  | ';' :: rest => some (n, rest)
  | _ => none

/-- Encode one key/value pair of a tool input. -/
def encPairC (p : String × String) : List Char :=
  encStrC p.1 ++ encStrC p.2

/-- Encode a tool input: pair count, then the pairs. -/
def encInputC (i : ToolInput) : List Char :=
  encNatC (List.length i) ++ (List.map encPairC i).flatten

/-- Decode exactly `n` key/value pairs. -/
def decPairsC : Nat → List Char → Option (List (String × String) × List Char)
  | 0, l => some ([], l)
  | n + 1, l =>
    match decStrC l with
    | some (a, l1) =>
      match decStrC l1 with
      | some (b, l2) =>
        match decPairsC n l2 with
        | some (ps, l3) => some ((a, b) :: ps, l3)
        | none => none
      | none => none
    | none => none

/-- Decode a tool input. -/
def decInputC (l : List Char) : Option (ToolInput × List Char) :=
  match decNatC l with
  | some (n, l1) => decPairsC n l1
  | none => none

/-- Encode one content block, tagged by kind. -/
def encBlockC (b : ContentBlock) : List Char :=
  match b with
  | .text t => 'T' :: encStrC t
  | .tool_use id name input => 'U' :: (encStrC id ++ encStrC name ++ encInputC input)
  | .tool_result tid c => 'R' :: (encStrC tid ++ encStrC c)

/-- Decode one content block. -/
def decBlockC (l : List Char) : Option (ContentBlock × List Char) :=
  match l with
  | [] => none
  | tag :: r =>
    if tag = 'T' then
      match decStrC r with
      | some (t, r1) => some (.text t, r1)
      | none => none
    else if tag = 'U' then
      match decStrC r with
      | some (id, r1) =>
        match decStrC r1 with
        | some (name, r2) =>
          match decInputC r2 with
          | some (input, r3) => some (.tool_use id name input, r3)
          | none => none
        | none => none
      | none => none
    else if tag = 'R' then
      match decStrC r with
      | some (tid, r1) =>
        match decStrC r1 with
        | some (c, r2) => some (.tool_result tid c, r2)
        | none => none
      | none => none
    else none

/-- Decode exactly `n` content blocks. -/
def decBlocksC : Nat → List Char → Option (List ContentBlock × List Char)
  | 0, l => some ([], l)
  | n + 1, l =>
    match decBlockC l with
    | some (b, l1) =>
      match decBlocksC n l1 with
      | some (bs, l2) => some (b :: bs, l2)
      | none => none
    | none => none

/-- Encode message content, tagged string vs. block list. -/
def encContentC (c : MContent) : List Char :=
  match c with
  | .str s => 'S' :: encStrC s
  | .blocks bs => 'B' :: (encNatC bs.length ++ (bs.map encBlockC).flatten)

/-- Decode message content. -/
def decContentC (l : List Char) : Option (MContent × List Char) :=
  match l with
  | [] => none
  | tag :: r =>
    if tag = 'S' then
      match decStrC r with
      | some (s, r1) => some (.str s, r1)
      | none => none
    else if tag = 'B' then
      match decNatC r with
      | some (n, r1) =>
        match decBlocksC n r1 with
        | some (bs, r2) => some (.blocks bs, r2)
        | none => none
      | none => none
    else none

/-- Encode a role as one character. -/
def encRoleC (r : Role) : Char :=
  match r with
  | .user => 'u'
  | .assistant => 'a'

/-- Decode a role character. -/
def decRoleC (c : Char) : Option Role :=
  if c = 'u' then some .user
  else if c = 'a' then some .assistant
  else none

/-- Encode a journal entry as one line. -/
def encEntry (e : JournalEntry) : String :=
  String.mk
    (match e with
    | .session id ts => 'J' :: (encStrC id ++ encNatC ts)
    | .message r c ts => 'M' :: encRoleC r :: (encContentC c ++ encNatC ts))

/-- Decode a full journal-entry line (the whole line must be consumed). -/
def decEntry (s : String) : Option JournalEntry :=
  match s.data with
  | [] => none
  | tag :: r =>
    if tag = 'J' then
      match decStrC r with
      | some (id, r1) =>
        match decNatC r1 with
        | some (ts, r2) => if r2.isEmpty then some (.session id ts) else none
        | none => none
      | none => none
    else if tag = 'M' then
      match r with
      | [] => none
      | rc :: r1 =>
        match decRoleC rc with
        | some role =>
          match decContentC r1 with
          | some (c, r2) =>
            match decNatC r2 with
            | some (ts, r3) => if r3.isEmpty then some (.message role c ts) else none
            | none => none
          | none => none
        | none => none
    else none

/-! ## Claim-specific helpers and concrete inputs -/

/-- Bool test: is this event a terminal message_stop? -/
def isStopEvent (e : StreamEvent) : Bool :=
  match e with
  | .message_stop _ => true
  | _ => false

/-- Rewrite a terminal event's stop reason by `f`; leave other events be. -/
def mapStopEvent (f : String → String) (e : StreamEvent) : StreamEvent :=
  match e with
  | .message_stop s => .message_stop (f s)
  | e => e

/-- Rewrite every terminal event's stop reason by `f`, leaving every other
event unchanged. -/
def setStopReasons (f : String → String) (rounds : List (List StreamEvent)) :
    List (List StreamEvent) :=
  rounds.map (List.map (mapStopEvent f))

/-- The content blocks of a message (empty for string content). -/
def blocksOf (m : Message) : List ContentBlock :=
  match m.content with
  | .str _ => []
  | .blocks bs => bs

/-- Bool test: a block is not a tool_result whose content exceeds `cap`. -/
def blockWithin (cap : Int) (b : ContentBlock) : Bool :=
  match b with
  | .tool_result _ c => (c.length : Int) ≤ cap
  | _ => true

/-- Every tool_result content in the list is within `cap`. -/
def toolResultContentsWithin (ms : List Message) (cap : Int) : Bool :=
  ms.all fun m => (blocksOf m).all (blockWithin cap)

/-- 60 repetitions of the letter x (no newline). -/
def xs60 : String := String.mk (List.replicate 60 'x')

/-- 2001 repetitions of the letter x (no newline): one character over a
2000-character cap. -/
def xs2001 : String := String.mk (List.replicate 2001 'x')

/-- A two-message transcript with one resolved tool_result whose content is
`xs60`. -/
def c4msgs : List Message :=
  [⟨.assistant, .blocks [.tool_use "1" "t" []]⟩, ⟨.user, .blocks [.tool_result "1" xs60]⟩]

/-- History limiting disabled, tool-result cap 50 characters. -/
def c4cfg : ContextConfig := ⟨0, 50⟩

/-- The spec's history-window scenario transcript. -/
def scenarioMessages : List Message :=
  [⟨.user, .str "Turn1"⟩, ⟨.assistant, .str "Resp1"⟩, ⟨.user, .str "Turn2"⟩,
    ⟨.assistant, .str "Resp2"⟩, ⟨.user, .str "Turn3"⟩]

/-- The spec's expected prepared context for the scenario at limit 2. -/
def scenarioExpected : List Message :=
  [⟨.assistant, .str "Resp1"⟩, ⟨.user, .str "Turn2"⟩,
    ⟨.assistant, .str "Resp2"⟩, ⟨.user, .str "Turn3"⟩]

/-! # Theorems

General lemmas about the embedded functions first, then one theorem per
claim (with counterexamples and witnesses where a claim requires them). -/

set_option maxRecDepth 8000

/-! ## Truncation lemmas -/

theorem keepCharsFor_ge (maxChars : Int) : MIN_KEEP_CHARS ≤ keepCharsFor maxChars := by
  unfold keepCharsFor MIN_KEEP_CHARS
  omega

theorem keepCharsFor_le {maxChars : Int} (h : (MIN_KEEP_CHARS : Int) ≤ maxChars) :
    (keepCharsFor maxChars : Int) ≤ maxChars := by
  unfold keepCharsFor MIN_KEEP_CHARS at *
  omega

theorem lastNewlinePos_le {cs : List Char} {pos i : Nat}
    (h : lastNewlinePos cs pos = some i) : i ≤ pos := by
  unfold lastNewlinePos at h
  have hm := List.mem_of_mem_getLast? h
  simp only [List.mem_map, List.mem_filter] at hm
  obtain ⟨p, ⟨hp, _⟩, hpi⟩ := hm
  have := List.fst_lt_of_mem_enum hp
  simp only [List.length_take] at this
  omega

theorem lastNewlinePos_none {cs : List Char} (pos : Nat)
    (h : ∀ c ∈ cs, c ≠ '\n') : lastNewlinePos cs pos = none := by
  unfold lastNewlinePos
  have hnil : ((cs.take (pos + 1)).enum).filter (fun p => p.2 = '\n') = [] := by
    apply List.filter_eq_nil_iff.mpr
    intro p hp
    have hmem : p.2 ∈ cs.take (pos + 1) := List.snd_mem_of_mem_enum hp
    have : p.2 ∈ cs := List.mem_of_mem_take hmem
    simp [h p.2 this]
  simp [hnil]

theorem cutPoint_le (text : String) (maxChars : Int) :
    cutPoint text maxChars ≤ keepCharsFor maxChars := by
  unfold cutPoint
  cases hl : lastNewlinePos text.toList (keepCharsFor maxChars) with
  | none =>
    simp only [hl]
    exact le_rfl
  | some i =>
    have hle : i ≤ keepCharsFor maxChars := lastNewlinePos_le hl
    simp only [hl]
    by_cases hc : keepCharsFor maxChars * 4 / 5 < i
    · simp only [if_pos hc]
      omega
    · simp only [if_neg hc]
      exact le_rfl

theorem cutPoint_gt (text : String) (maxChars : Int) :
    keepCharsFor maxChars * 4 / 5 < cutPoint text maxChars := by
  have hk : 0 < keepCharsFor maxChars :=
    lt_of_lt_of_le (by norm_num [MIN_KEEP_CHARS]) (keepCharsFor_ge maxChars)
  have hdiv : keepCharsFor maxChars * 4 / 5 < keepCharsFor maxChars := by
    apply Nat.div_lt_iff_lt_mul (by norm_num) |>.mpr
    omega
  unfold cutPoint
  cases hl : lastNewlinePos text.toList (keepCharsFor maxChars) with
  | none => simpa only [hl] using hdiv
  | some i =>
    simp only [hl]
    by_cases hc : keepCharsFor maxChars * 4 / 5 < i
    · simp only [if_pos hc]
      omega
    · simp only [if_neg hc]
      omega

theorem truncMarker_length (cutAt total : Nat) :
    (truncMarker cutAt total).length =
      44 + (toString cutAt).length + (toString total).length := by
  unfold truncMarker
  simp only [String.length_append]
  have h1 : ("\n\n[Truncated: showing first " : String).length = 28 := rfl
  have h2 : (" of " : String).length = 4 := rfl
  have h3 : (" characters]" : String).length = 12 := rfl
  rw [h1, h2, h3]
  omega

theorem truncateText_of_le {text : String} {maxChars : Int}
    (h : (text.length : Int) ≤ maxChars) : truncateText text maxChars = text := by
  unfold truncateText
  rw [if_pos h]

theorem truncateText_length {text : String} {maxChars : Int}
    (h : maxChars < (text.length : Int)) :
    (truncateText text maxChars).length =
      min (cutPoint text maxChars) text.length +
        (truncMarker (cutPoint text maxChars) text.length).length := by
  unfold truncateText
  rw [if_neg (by omega)]
  rw [String.length_append]
  congr 1
  show (text.toList.take (cutPoint text maxChars)).length = _
  rw [List.length_take]
  rfl



theorem cutPoint_of_none {text : String} {maxChars : Int}
    (h : lastNewlinePos text.toList (keepCharsFor maxChars) = none) :
    cutPoint text maxChars = keepCharsFor maxChars := by
  unfold cutPoint
  simp only [h]

/-- Claim C3 amended. -/
theorem truncation_bounds_amended (text : String) (cap : Int)
    (h : (MIN_KEEP_CHARS : Int) ≤ cap) :
    ((text.length : Int) ≤ cap → truncateToolResult text cap = text) ∧
    (cap < (text.length : Int) →
      keepCharsFor cap * 4 / 5 < cutPoint text cap ∧
      cutPoint text cap ≤ keepCharsFor cap ∧
      (keepCharsFor cap : Int) ≤ cap ∧
      (truncateToolResult text cap).length =
        cutPoint text cap + (truncMarker (cutPoint text cap) text.length).length ∧
      keepCharsFor cap * 4 / 5 + 45 ≤ (truncateToolResult text cap).length) := by
  constructor
  · intro hle
    exact truncateText_of_le hle
  · intro hgt
    have hkeep : (keepCharsFor cap : Int) ≤ cap := keepCharsFor_le h
    have hcutle : cutPoint text cap ≤ keepCharsFor cap := cutPoint_le text cap
    have hcutgt : keepCharsFor cap * 4 / 5 < cutPoint text cap := cutPoint_gt text cap
    have hcutlen : cutPoint text cap ≤ text.length := by omega
    have hlen := truncateText_length hgt
    have hmin : min (cutPoint text cap) text.length = cutPoint text cap := by omega
    rw [hmin] at hlen
    have hmark := truncMarker_length (cutPoint text cap) text.length
    refine ⟨hcutgt, hcutle, hkeep, hlen, ?_⟩
    show keepCharsFor cap * 4 / 5 + 45 ≤ (truncateText text cap).length
    rw [hlen, hmark]
    omega

/-- Claim C3 counterexamples. -/
theorem truncation_bounds_counterexample :
    ((MIN_KEEP_CHARS : Int) ≤ 2000 ∧
      ¬MIN_KEEP_CHARS ≤ (truncateToolResult "hi" 2000).length) ∧
    ((MIN_KEEP_CHARS : Int) ≤ 2000 ∧
      ¬(truncateToolResult xs2001 2000).length ≤ xs2001.length) := by
  refine ⟨⟨by norm_num [MIN_KEEP_CHARS], by decide⟩, ⟨by norm_num [MIN_KEEP_CHARS], ?_⟩⟩
  have hdata : xs2001.data = List.replicate 2001 'x' := rfl
  have hlen : xs2001.length = 2001 := by
    show xs2001.data.length = 2001
    rw [hdata, List.length_replicate]
  have hgt : (2000 : Int) < (xs2001.length : Int) := by rw [hlen]; norm_num
  have hkeep : keepCharsFor 2000 = 2000 := rfl
  have hnl : lastNewlinePos xs2001.toList (keepCharsFor 2000) = none := by
    apply lastNewlinePos_none
    intro c hc
    rw [show xs2001.toList = List.replicate 2001 'x' from rfl] at hc
    have := List.eq_of_mem_replicate hc
    subst this
    decide
  have hcut : cutPoint xs2001 2000 = 2000 := by
    rw [cutPoint_of_none hnl, hkeep]
  have hlen2 := truncateText_length hgt
  have hmark := truncMarker_length (cutPoint xs2001 2000) xs2001.length
  have ht1 : (toString (2000 : Nat)).length = 4 := by decide
  have ht2 : (toString (2001 : Nat)).length = 4 := by decide
  rw [hcut, hlen] at hmark
  rw [ht1, ht2] at hmark
  show ¬(truncateText xs2001 2000).length ≤ xs2001.length
  rw [hlen2, hcut, hlen, hmark]
  norm_num

/-- Witness for the amended C3 theorem. -/
theorem truncation_bounds_witness : truncateToolResult "hi" 2000 = "hi" :=
  (truncation_bounds_amended "hi" 2000 (by norm_num [MIN_KEEP_CHARS])).1 (by decide)



/-! ## History-window lemmas -/

theorem limitAux_suffix (k : Int) (l : List Message) : (limitAux k l).IsSuffix l := by
  induction l with
  | nil => exact List.suffix_refl []
  | cons m rest ih =>
    unfold limitAux
    by_cases hc : (countUserMessages (m :: rest) : Int) ≤ k
    · rw [if_pos hc]
    · rw [if_neg hc]
      exact ih.trans (List.suffix_cons m rest)

theorem limitAux_count {k : Int} (hk : 0 ≤ k) (l : List Message) :
    (countUserMessages (limitAux k l) : Int) ≤ k := by
  induction l with
  | nil =>
    simp [limitAux, countUserMessages]
    omega
  | cons m rest ih =>
    unfold limitAux
    by_cases hc : (countUserMessages (m :: rest) : Int) ≤ k
    · rw [if_pos hc]
      exact hc
    · rw [if_neg hc]
      exact ih

theorem limitAux_eq_self {k : Int} {l : List Message}
    (h : (countUserMessages l : Int) ≤ k) : limitAux k l = l := by
  cases l with
  | nil => rfl
  | cons m rest =>
    unfold limitAux
    rw [if_pos h]

theorem limitHistoryTurns_nonpos {k : Int} (msgs : List Message) (h : k ≤ 0) :
    limitHistoryTurns msgs k = msgs := by
  unfold limitHistoryTurns
  rw [if_pos h]

theorem limitHistoryTurns_pos {k : Int} (msgs : List Message) (h : 0 < k) :
    limitHistoryTurns msgs k = limitAux k msgs := by
  unfold limitHistoryTurns
  rw [if_neg (by omega)]

/-- Claim C5: with a positive limit k, the prepared slice is a suffix of the
transcript containing at most k user messages (so no user message older than
the k most recent survives); the spec's scenario prepares exactly as stated
for every tool-result cap; and a non-positive limit disables the stage. -/
theorem history_window_law (msgs : List Message) (k : Int) :
    (0 < k → (limitHistoryTurns msgs k).IsSuffix msgs ∧
      (countUserMessages (limitHistoryTurns msgs k) : Int) ≤ k) ∧
    (k ≤ 0 → limitHistoryTurns msgs k = msgs) ∧
    (∀ cap : Int, prepareContext scenarioMessages ⟨2, cap⟩ = scenarioExpected) := by
  refine ⟨fun hk => ?_, limitHistoryTurns_nonpos msgs, fun cap => rfl⟩
  rw [limitHistoryTurns_pos msgs hk]
  exact ⟨limitAux_suffix k msgs, limitAux_count (by omega) msgs⟩



/-! ## Orphan-cleanup lemmas -/

theorem keepOrphanFiltered_post {ids : List String} {m0 m : Message}
    (h : keepOrphanFiltered ids m0 = some m) : keepOrphanFiltered ids m = some m := by
  obtain ⟨r0, c0⟩ := m0
  cases r0 with
  | assistant =>
    cases c0 with
    | str s =>
      rw [show keepOrphanFiltered ids ⟨.assistant, .str s⟩
          = some ⟨.assistant, .str s⟩ from rfl] at h
      obtain rfl : (⟨.assistant, .str s⟩ : Message) = m := Option.some.inj h
      rfl
    | blocks bs =>
      rw [show keepOrphanFiltered ids ⟨.assistant, .blocks bs⟩
          = some ⟨.assistant, .blocks bs⟩ from rfl] at h
      obtain rfl : (⟨.assistant, .blocks bs⟩ : Message) = m := Option.some.inj h
      rfl
  | user =>
    cases c0 with
    | str s =>
      rw [show keepOrphanFiltered ids ⟨.user, .str s⟩
          = some ⟨.user, .str s⟩ from rfl] at h
      obtain rfl : (⟨.user, .str s⟩ : Message) = m := Option.some.inj h
      rfl
    | blocks bs =>
      rw [show keepOrphanFiltered ids ⟨.user, .blocks bs⟩
          = (if (bs.filter (keepBlock ids)).isEmpty then none
             else some ⟨.user, .blocks (bs.filter (keepBlock ids))⟩) from rfl] at h
      by_cases he : (bs.filter (keepBlock ids)).isEmpty
      · rw [if_pos he] at h
        exact absurd h (by simp)
      · rw [if_neg he] at h
        obtain rfl : (⟨.user, .blocks (bs.filter (keepBlock ids))⟩ : Message) = m :=
          Option.some.inj h
        show keepOrphanFiltered ids ⟨.user, .blocks (bs.filter (keepBlock ids))⟩ = _
        rw [show keepOrphanFiltered ids ⟨.user, .blocks (bs.filter (keepBlock ids))⟩
            = (if ((bs.filter (keepBlock ids)).filter (keepBlock ids)).isEmpty then none
               else some ⟨.user,
                 .blocks ((bs.filter (keepBlock ids)).filter (keepBlock ids))⟩) from rfl]
        have hff : (bs.filter (keepBlock ids)).filter (keepBlock ids)
            = bs.filter (keepBlock ids) :=
          List.filter_eq_self.mpr fun b hb => List.of_mem_filter hb
        rw [hff, if_neg he]

theorem filter_assistants_filterMap_keep (ids : List String) (ms : List Message) :
    (ms.filterMap (keepOrphanFiltered ids)).filter isAssistant = ms.filter isAssistant := by
  induction ms with
  | nil => rfl
  | cons m rest ih =>
    obtain ⟨r, c⟩ := m
    cases r with
    | assistant =>
      cases c with
      | str s => simpa [List.filterMap_cons, keepOrphanFiltered, isAssistant] using ih
      | blocks bs => simpa [List.filterMap_cons, keepOrphanFiltered, isAssistant] using ih
    | user =>
      cases c with
      | str s => simpa [List.filterMap_cons, keepOrphanFiltered, isAssistant] using ih
      | blocks bs =>
        simp only [List.filterMap_cons, keepOrphanFiltered]
        by_cases he : (bs.filter (keepBlock ids)).isEmpty
        · rw [if_pos he]
          simpa [isAssistant] using ih
        · rw [if_neg he]
          simpa [isAssistant] using ih

theorem collect_cons (m : Message) (rest : List Message) :
    collectToolUseIds (m :: rest) = assistantToolUseIds m ++ collectToolUseIds rest := by
  rfl

theorem collect_filterMap_keep (ids : List String) (ms : List Message) :
    collectToolUseIds (ms.filterMap (keepOrphanFiltered ids)) = collectToolUseIds ms := by
  induction ms with
  | nil => rfl
  | cons m rest ih =>
    obtain ⟨r, c⟩ := m
    cases r with
    | assistant =>
      cases c with
      | str s =>
        simp only [List.filterMap_cons, keepOrphanFiltered, collect_cons]
        rw [ih]
      | blocks bs =>
        simp only [List.filterMap_cons, keepOrphanFiltered, collect_cons]
        rw [ih]
    | user =>
      cases c with
      | str s =>
        simp only [List.filterMap_cons, keepOrphanFiltered, collect_cons]
        rw [ih]
      | blocks bs =>
        simp only [List.filterMap_cons, keepOrphanFiltered]
        by_cases he : (bs.filter (keepBlock ids)).isEmpty
        · rw [if_pos he]
          rw [ih, collect_cons]
          simp [assistantToolUseIds]
        · rw [if_neg he]
          rw [collect_cons, collect_cons, ih]
          simp [assistantToolUseIds]

theorem blocks_subset_filterMap_keep {ids : List String} {ms : List Message} {m : Message}
    (h : m ∈ ms.filterMap (keepOrphanFiltered ids)) :
    ∃ m0 ∈ ms, m.role = m0.role ∧ ∀ b ∈ blocksOf m, b ∈ blocksOf m0 := by
  obtain ⟨m0, hm0, hk⟩ := List.mem_filterMap.mp h
  refine ⟨m0, hm0, ?_⟩
  obtain ⟨r0, c0⟩ := m0
  cases r0 with
  | assistant =>
    cases c0 with
    | str s =>
      obtain rfl := Option.some.inj hk
      exact ⟨rfl, fun b hb => hb⟩
    | blocks bs =>
      obtain rfl := Option.some.inj hk
      exact ⟨rfl, fun b hb => hb⟩
  | user =>
    cases c0 with
    | str s =>
      obtain rfl := Option.some.inj hk
      exact ⟨rfl, fun b hb => hb⟩
    | blocks bs =>
      rw [show keepOrphanFiltered ids ⟨.user, .blocks bs⟩
          = (if (bs.filter (keepBlock ids)).isEmpty then none
             else some ⟨.user, .blocks (bs.filter (keepBlock ids))⟩) from rfl] at hk
      by_cases he : (bs.filter (keepBlock ids)).isEmpty
      · rw [if_pos he] at hk
        exact absurd hk (by simp)
      · rw [if_neg he] at hk
        obtain rfl := Option.some.inj hk
        exact ⟨rfl, fun b hb => List.mem_of_mem_filter (by simpa [blocksOf] using hb)⟩

/-- Claim C1 counterexample: prepareContext can emit a message whose
content-block list is empty, and a tool_result whose reference resolves to
no tool_use of the output, when these sit in an assistant message, which
orphan cleanup never touches. -/
theorem context_integrity_counterexample :
    prepareContext [⟨.assistant, .blocks []⟩] ⟨0, 50⟩ = [⟨.assistant, .blocks []⟩] ∧
    prepareContext [⟨.assistant, .blocks [.tool_result "z" "c"]⟩] ⟨0, 50⟩
      = [⟨.assistant, .blocks [.tool_result "z" "c"]⟩] ∧
    collectToolUseIds [⟨.assistant, .blocks [.tool_result "z" "c"]⟩] = [] := by
  refine ⟨rfl, rfl, rfl⟩

/-- Claim C1 (amended): in prepareContext output, every user message with
block content has a nonempty block list, and every tool_result block of a
user message references a tool_use id collected from the same output.
Assistant messages pass through orphan cleanup unmodified, so the claim's
guarantees hold only for user-role messages. -/
theorem context_integrity_amended (msgs : List Message) (cfg : ContextConfig) :
    ∀ m ∈ prepareContext msgs cfg, m.role = .user → ∀ bs, m.content = .blocks bs →
      bs ≠ [] ∧
      ∀ tid c, ContentBlock.tool_result tid c ∈ bs →
        (collectToolUseIds (prepareContext msgs cfg)).contains tid = true := by
  intro m hm hr bs hc
  have hrepr : prepareContext msgs cfg
      = (truncateToolResults (limitHistoryTurns msgs cfg.maxHistoryTurns)
          (min cfg.maxToolResultChars HARD_MAX_TOOL_RESULT_CHARS)).filterMap
        (keepOrphanFiltered
          (collectToolUseIds
            (truncateToolResults (limitHistoryTurns msgs cfg.maxHistoryTurns)
              (min cfg.maxToolResultChars HARD_MAX_TOOL_RESULT_CHARS)))) := rfl
  set X := truncateToolResults (limitHistoryTurns msgs cfg.maxHistoryTurns)
    (min cfg.maxToolResultChars HARD_MAX_TOOL_RESULT_CHARS) with hX
  set ids := collectToolUseIds X with hids
  rw [hrepr] at hm
  obtain ⟨m0, _, hk0⟩ := List.mem_filterMap.mp hm
  have hpost : keepOrphanFiltered ids m = some m := keepOrphanFiltered_post hk0
  obtain ⟨r, c⟩ := m
  obtain rfl : r = .user := hr
  obtain rfl : c = .blocks bs := hc
  rw [show keepOrphanFiltered ids ⟨.user, .blocks bs⟩
      = (if (bs.filter (keepBlock ids)).isEmpty then none
         else some ⟨.user, .blocks (bs.filter (keepBlock ids))⟩) from rfl] at hpost
  by_cases he : (bs.filter (keepBlock ids)).isEmpty
  · rw [if_pos he] at hpost
    exact absurd hpost (by simp)
  · rw [if_neg he] at hpost
    have hfe : bs.filter (keepBlock ids) = bs := by
      have := Option.some.inj hpost
      have hcc : MContent.blocks (bs.filter (keepBlock ids)) = MContent.blocks bs :=
        congrArg Message.content this
      exact MContent.blocks.inj hcc
    constructor
    · intro hnil
      rw [hnil] at he
      simp at he
    · intro tid c hb
      have hmem : ContentBlock.tool_result tid c ∈ bs.filter (keepBlock ids) := by
        rw [hfe]; exact hb
      have hkb : keepBlock ids (ContentBlock.tool_result tid c) = true :=
        List.of_mem_filter hmem
      have hcontains : ids.contains tid = true := by
        simpa [keepBlock] using hkb
      rw [hrepr, collect_filterMap_keep]
      exact hcontains

/-- Witness for the amended C1 theorem at a concrete transcript. -/
theorem context_integrity_witness :
    [ContentBlock.tool_result "1" xs60] ≠ [] ∧
    ∀ tid c, ContentBlock.tool_result tid c ∈ [ContentBlock.tool_result "1" xs60] →
      (collectToolUseIds (prepareContext c4msgs ⟨0, 400000⟩)).contains tid = true :=
  context_integrity_amended c4msgs ⟨0, 400000⟩ ⟨.user, .blocks [.tool_result "1" xs60]⟩
    (by decide) rfl [.tool_result "1" xs60] rfl

/-! ## Last-assistant survival lemmas (for the empty-round claim) -/

theorem limitAux_mem_last {k : Int} (hk : 0 < k) (l : List Message) (a : Message)
    (ha : isUser a = false) : a ∈ limitAux k (l ++ [a]) := by
  induction l with
  | nil =>
    have hc : (countUserMessages [a] : Int) ≤ k := by
      simp [countUserMessages, ha]
      omega
    show a ∈ limitAux k [a]
    unfold limitAux
    rw [if_pos hc]
    simp
  | cons m rest ih =>
    show a ∈ limitAux k (m :: (rest ++ [a]))
    unfold limitAux
    by_cases hc : (countUserMessages (m :: (rest ++ [a])) : Int) ≤ k
    · rw [if_pos hc]
      simp
    · rw [if_neg hc]
      exact ih

theorem truncate_msg_assistant (maxChars : Int) (a : Message)
    (hrole : a.role = .assistant) : truncateMsg maxChars a = a := by
  obtain ⟨r, c⟩ := a
  obtain rfl : r = .assistant := hrole
  cases c with
  | str s => rfl
  | blocks bs => rfl

theorem mem_prepare_last_assistant (msgs : List Message) (cfg : ContextConfig)
    (a : Message) (hrole : a.role = .assistant) :
    a ∈ prepareContext (msgs ++ [a]) cfg := by
  have ha : isUser a = false := by
    obtain ⟨r, c⟩ := a
    obtain rfl : r = .assistant := hrole
    rfl
  have h1 : a ∈ limitHistoryTurns (msgs ++ [a]) cfg.maxHistoryTurns := by
    unfold limitHistoryTurns
    by_cases hk : cfg.maxHistoryTurns ≤ 0
    · rw [if_pos hk]
      simp
    · rw [if_neg hk]
      exact limitAux_mem_last (by omega) msgs a ha
  have h2 : a ∈ truncateToolResults (limitHistoryTurns (msgs ++ [a]) cfg.maxHistoryTurns)
      (min cfg.maxToolResultChars HARD_MAX_TOOL_RESULT_CHARS) := by
    unfold truncateToolResults
    exact List.mem_map.mpr ⟨a, h1,
      truncate_msg_assistant (min cfg.maxToolResultChars HARD_MAX_TOOL_RESULT_CHARS) a hrole⟩
  have h3 : keepOrphanFiltered
      (collectToolUseIds
        (truncateToolResults (limitHistoryTurns (msgs ++ [a]) cfg.maxHistoryTurns)
          (min cfg.maxToolResultChars HARD_MAX_TOOL_RESULT_CHARS))) a = some a := by
    obtain ⟨r, c⟩ := a
    obtain rfl : r = .assistant := hrole
    cases c with
    | str s => rfl
    | blocks bs => rfl
  exact List.mem_filterMap.mpr ⟨a, h2, h3⟩

/-- Claim C10: a round with no text and no tool_use events still appends an
assistant message with an empty content-block list; prepareContext keeps a
trailing zero-block assistant message in the bounded context; and orphan
cleanup drops only user-role messages (the assistant sublist is untouched). -/
theorem empty_round_behavior (s : String) (tools : List Tool) (sess : List Message)
    (u : String) (msgs ms2 : List Message) (cfg : ContextConfig) :
    agentTurn [[.message_stop s]] tools sess u
      = (sess ++ [⟨.user, .str u⟩, ⟨.assistant, .blocks []⟩], []) ∧
    (⟨.assistant, .blocks []⟩ : Message) ∈
      prepareContext (msgs ++ [⟨.assistant, .blocks []⟩]) cfg ∧
    (removeOrphanedToolResults ms2).filter isAssistant = ms2.filter isAssistant := by
  refine ⟨?_, mem_prepare_last_assistant msgs cfg ⟨.assistant, .blocks []⟩ rfl,
    filter_assistants_filterMap_keep (collectToolUseIds ms2) ms2⟩
  simp [agentTurn, runRounds, roundText, roundToolUses, roundTextEvents,
    assistantBlocks, assistantContent]



/-! ## Agent-loop round lemmas -/

theorem roundText_map_stop (f : String → String) (r : List StreamEvent) :
    roundText (r.map (mapStopEvent f)) = roundText r := by
  suffices h : ∀ acc : String,
      (r.map (mapStopEvent f)).foldl
          (fun s e =>
            match e with
            | .text t => s ++ t
            | _ => s) acc
        = r.foldl
            (fun s e =>
              match e with
              | .text t => s ++ t
              | _ => s) acc by
    exact h ""
  induction r with
  | nil => intro acc; rfl
  | cons e rest ih =>
    intro acc
    cases e <;> simpa [mapStopEvent] using ih _

theorem roundToolUses_map_stop (f : String → String) (r : List StreamEvent) :
    roundToolUses (r.map (mapStopEvent f)) = roundToolUses r := by
  induction r with
  | nil => rfl
  | cons e rest ih =>
    cases e <;> simpa [mapStopEvent, roundToolUses, List.filterMap_cons] using ih

theorem roundTextEvents_map_stop (f : String → String) (r : List StreamEvent) :
    roundTextEvents (r.map (mapStopEvent f)) = roundTextEvents r := by
  induction r with
  | nil => rfl
  | cons e rest ih =>
    cases e <;> simpa [mapStopEvent, roundTextEvents, List.filter_cons] using ih

theorem runRounds_map_stop (f : String → String) (tools : List Tool)
    (rounds : List (List StreamEvent)) :
    ∀ msgs evs, runRounds tools (setStopReasons f rounds) msgs evs
      = runRounds tools rounds msgs evs := by
  induction rounds with
  | nil => intro msgs evs; rfl
  | cons r rest ih =>
    intro msgs evs
    show runRounds tools ((r.map (mapStopEvent f)) :: setStopReasons f rest) msgs evs = _
    simp only [runRounds, roundText_map_stop, roundToolUses_map_stop, roundTextEvents_map_stop]
    by_cases ht : (roundToolUses r).isEmpty
    · simp only [ht, if_true]
    · simp only [ht, if_false]
      exact ih _ _

/-- Claim C9: the loop's termination condition reads only whether the round
produced tool_use events.  Rewriting every stop reason changes nothing in
the turn's output; a round with reason end_turn but a buffered tool_use
still dispatches it and continues into the following rounds; a round with
reason tool_use but no tool_use events ends the turn, ignoring any further
rounds. -/
theorem termination_ignores_stop_reason (f : String → String)
    (rounds : List (List StreamEvent)) (tools : List Tool) (sess : List Message)
    (u : String) :
    agentTurn (setStopReasons f rounds) tools sess u = agentTurn rounds tools sess u ∧
    (∀ id n i rest,
      agentTurn (([.tool_use id n i, .message_stop "end_turn"]) :: rest) tools sess u
        = runRounds tools rest
            (sess ++ [⟨.user, .str u⟩, ⟨.assistant, .blocks [.tool_use id n i]⟩,
              ⟨.user, .blocks [.tool_result id (executeTool n i tools)]⟩])
            [.tool_start n i, .tool_end n (executeTool n i tools)]) ∧
    (∀ rest, agentTurn (([.message_stop "tool_use"]) :: rest) tools sess u
      = (sess ++ [⟨.user, .str u⟩, ⟨.assistant, .blocks []⟩], [])) := by
  refine ⟨runRounds_map_stop f tools rounds _ _, fun id n i rest => ?_, fun rest => ?_⟩
  · simp [agentTurn, runRounds, roundText, roundToolUses, roundTextEvents,
      assistantBlocks, assistantContent, dispatchEvents, dispatchResults]
  · simp [agentTurn, runRounds, roundText, roundToolUses, roundTextEvents,
      assistantBlocks, assistantContent]

/-- Claim C2: when the first round yields exactly one tool_use event (and no
text) and the second only text with stop reason end_turn, the turn executes
that one tool, emits tool_start, tool_end, then the text, and appends
exactly the four messages user / assistant+tool_use / user+tool_result /
text-only assistant. -/
theorem single_tool_round_scenario (sess : List Message) (u id n : String)
    (i : ToolInput) (txt sr1 : String) (tools : List Tool) (h : txt ≠ "") :
    agentTurn [[.tool_use id n i, .message_stop sr1], [.text txt, .message_stop "end_turn"]]
        tools sess u
      = (sess ++ [⟨.user, .str u⟩, ⟨.assistant, .blocks [.tool_use id n i]⟩,
          ⟨.user, .blocks [.tool_result id (executeTool n i tools)]⟩,
          ⟨.assistant, .str txt⟩],
        [.tool_start n i, .tool_end n (executeTool n i tools), .text txt]) := by
  simp [agentTurn, runRounds, roundText, roundToolUses, roundTextEvents, assistantBlocks,
    assistantContent, dispatchEvents, dispatchResults, h]

/-- Witness for the C2 scenario at concrete inputs. -/
theorem single_tool_round_scenario_witness :
    agentTurn [[.tool_use "i1" "t" [], .message_stop "tool_use"],
        [.text "done", .message_stop "end_turn"]] [] [] "hi"
      = ([⟨.user, .str "hi"⟩, ⟨.assistant, .blocks [.tool_use "i1" "t" []]⟩,
          ⟨.user, .blocks [.tool_result "i1" (executeTool "t" [] [])]⟩,
          ⟨.assistant, .str "done"⟩],
        [.tool_start "t" [], .tool_end "t" (executeTool "t" [] []), .text "done"]) :=
  single_tool_round_scenario [] "hi" "i1" "t" [] "done" "tool_use" [] (by decide)

/-- Claim C7: tool dispatch is total.  An unknown name yields the
synthesized error string; a throwing executor is caught and rendered; a
successful executor's result is passed through; and in the loop the
dispatch result (error or not) is embedded in the round's tool_result
message while the loop proceeds with the following rounds. -/
theorem tool_dispatch_total (name : String) (input : ToolInput) (tools : List Tool) :
    (tools.find? (fun t => t.definition.name == name) = none →
      executeTool name input tools = "Error: Unknown tool \"" ++ name ++ "\"") ∧
    (∀ t, tools.find? (fun t => t.definition.name == name) = some t →
      (∀ e, t.execute input = .threw e →
        executeTool name input tools = "Error executing tool \"" ++ name ++ "\": " ++ e) ∧
      (∀ r, t.execute input = .ok r → executeTool name input tools = r)) ∧
    (∀ id rest sess u,
      agentTurn (([.tool_use id name input, .message_stop "tool_use"]) :: rest) tools sess u
        = runRounds tools rest
            (sess ++ [⟨.user, .str u⟩, ⟨.assistant, .blocks [.tool_use id name input]⟩,
              ⟨.user, .blocks [.tool_result id (executeTool name input tools)]⟩])
            [.tool_start name input, .tool_end name (executeTool name input tools)]) := by
  refine ⟨fun hn => ?_, fun t ht => ⟨fun e he => ?_, fun r hr => ?_⟩, fun id rest sess u => ?_⟩
  · simp [executeTool, hn]
  · simp [executeTool, ht, he]
  · simp [executeTool, ht, hr]
  · simp [agentTurn, runRounds, roundText, roundToolUses, roundTextEvents, assistantBlocks,
      assistantContent, dispatchEvents, dispatchResults]



/-! ## Idempotence lemmas -/

theorem map_self_of {α : Type} (f : α → α) (l : List α) (h : ∀ a ∈ l, f a = a) :
    l.map f = l := by
  induction l with
  | nil => rfl
  | cons a l ih =>
    simp only [List.map_cons, h a (by simp)]
    rw [ih fun b hb => h b (by simp [hb])]

theorem filterMap_self_of {α : Type} (f : α → Option α) (l : List α)
    (h : ∀ a ∈ l, f a = some a) : l.filterMap f = l := by
  induction l with
  | nil => rfl
  | cons a l ih =>
    simp only [List.filterMap_cons, h a (by simp)]
    rw [ih fun b hb => h b (by simp [hb])]

theorem prepareContext_eq (msgs : List Message) (cfg : ContextConfig) :
    prepareContext msgs cfg
      = removeOrphanedToolResults
          (truncateToolResults (limitHistoryTurns msgs cfg.maxHistoryTurns)
            (min cfg.maxToolResultChars HARD_MAX_TOOL_RESULT_CHARS)) := rfl

theorem truncateBlock_id {cap : Int} {b : ContentBlock}
    (h : blockWithin cap b = true) : truncateBlock cap b = b := by
  cases b with
  | text t => rfl
  | tool_use id n i => rfl
  | tool_result tid c =>
    have hle : (c.length : Int) ≤ cap := by simpa [blockWithin] using h
    simp [truncateBlock]
    omega

theorem truncateMsg_id {cap : Int} {m : Message}
    (h : (blocksOf m).all (blockWithin cap) = true) : truncateMsg cap m = m := by
  obtain ⟨r, c⟩ := m
  cases r with
  | assistant =>
    cases c with
    | str s => rfl
    | blocks bs => rfl
  | user =>
    cases c with
    | str s => rfl
    | blocks bs =>
      have hall : ∀ b ∈ bs, blockWithin cap b = true := by
        intro b hb
        exact List.all_eq_true.mp (by simpa [blocksOf] using h) b hb
      show truncateMsg cap ⟨.user, .blocks bs⟩ = _
      rw [show truncateMsg cap ⟨.user, .blocks bs⟩
          = (if bs.any isToolResultBlock then
              (⟨.user, .blocks (bs.map (truncateBlock cap))⟩ : Message)
             else ⟨.user, .blocks bs⟩) from rfl]
      by_cases ha : bs.any isToolResultBlock
      · rw [if_pos ha, map_self_of _ _ fun b hb => truncateBlock_id (hall b hb)]
      · rw [if_neg ha]

theorem truncateToolResults_id {cap : Int} {ms : List Message}
    (h : toolResultContentsWithin ms cap = true) : truncateToolResults ms cap = ms := by
  unfold truncateToolResults
  apply map_self_of
  intro m hm
  exact truncateMsg_id (List.all_eq_true.mp h m hm)

theorem truncateMsg_role (cap : Int) (m : Message) : (truncateMsg cap m).role = m.role := by
  obtain ⟨r, c⟩ := m
  cases r <;> cases c <;> first
    | rfl
    | (show Message.role (if _ then _ else _) = _
       split <;> rfl)

theorem countUsers_truncate (ms : List Message) (cap : Int) :
    countUserMessages (truncateToolResults ms cap) = countUserMessages ms := by
  induction ms with
  | nil => rfl
  | cons m rest ih =>
    show countUserMessages (truncateMsg cap m :: truncateToolResults rest cap) = _
    unfold countUserMessages
    rw [List.countP_cons, List.countP_cons]
    have : isUser (truncateMsg cap m) = isUser m := by
      unfold isUser
      rw [truncateMsg_role]
    rw [this]
    have ihc : (truncateToolResults rest cap).countP isUser = rest.countP isUser := ih
    rw [ihc]

theorem countUsers_filterMap_keep_le (ids : List String) (ms : List Message) :
    countUserMessages (ms.filterMap (keepOrphanFiltered ids)) ≤ countUserMessages ms := by
  induction ms with
  | nil => exact le_rfl
  | cons m rest ih =>
    obtain ⟨r, c⟩ := m
    unfold countUserMessages at *
    cases r with
    | assistant =>
      cases c with
      | str s =>
        simp only [List.filterMap_cons, keepOrphanFiltered, List.countP_cons]
        omega
      | blocks bs =>
        simp only [List.filterMap_cons, keepOrphanFiltered, List.countP_cons]
        omega
    | user =>
      cases c with
      | str s =>
        simp only [List.filterMap_cons, keepOrphanFiltered, List.countP_cons]
        omega
      | blocks bs =>
        simp only [List.filterMap_cons, keepOrphanFiltered]
        by_cases he : (bs.filter (keepBlock ids)).isEmpty
        · simp only [if_pos he]
          simp only [List.countP_cons]
          simp [isUser]
          omega
        · simp only [if_neg he]
          simp only [List.countP_cons]
          simp [isUser]
          omega

theorem within_of_subset {ms ms' : List Message} {cap : Int}
    (hsub : ∀ m ∈ ms', m ∈ ms)
    (h : toolResultContentsWithin ms cap = true) :
    toolResultContentsWithin ms' cap = true := by
  unfold toolResultContentsWithin at *
  rw [List.all_eq_true] at *
  exact fun m hm => h m (hsub m hm)

theorem within_filterMap_keep {ids : List String} {ms : List Message} {cap : Int}
    (h : toolResultContentsWithin ms cap = true) :
    toolResultContentsWithin (ms.filterMap (keepOrphanFiltered ids)) cap = true := by
  unfold toolResultContentsWithin at *
  rw [List.all_eq_true] at *
  intro m hm
  obtain ⟨m0, hm0, _, hsub⟩ := blocks_subset_filterMap_keep hm
  rw [List.all_eq_true]
  intro b hb
  exact List.all_eq_true.mp (h m0 hm0) b (hsub b hb)

theorem removeOrphaned_idem (ms : List Message) :
    removeOrphanedToolResults (removeOrphanedToolResults ms)
      = removeOrphanedToolResults ms := by
  show (ms.filterMap (keepOrphanFiltered (collectToolUseIds ms))).filterMap
      (keepOrphanFiltered
        (collectToolUseIds (ms.filterMap (keepOrphanFiltered (collectToolUseIds ms)))))
    = ms.filterMap (keepOrphanFiltered (collectToolUseIds ms))
  rw [collect_filterMap_keep]
  apply filterMap_self_of
  intro m hm
  obtain ⟨m0, _, hk⟩ := List.mem_filterMap.mp hm
  exact keepOrphanFiltered_post hk

/-- Claim C4 counterexample: prepareContext applied to its own output is not
that output.  With cap 50 a 60-character tool_result is "truncated" to a
longer string (keep floor 2000 exceeds its length, so everything is kept and
a marker is appended); the result still exceeds the cap, so the second
application appends a second marker. -/
theorem prepare_context_idempotent_counterexample :
    prepareContext (prepareContext c4msgs c4cfg) c4cfg ≠ prepareContext c4msgs c4cfg := by
  decide

/-- Claim C4 (amended): prepareContext is idempotent on every input whose
tool_result contents already fit the effective cap (in particular whenever
no truncation fires); it is not idempotent in general, because a truncated
tool_result can still exceed the cap and receives another marker on
re-application. -/
theorem prepare_context_idempotent_within (msgs : List Message) (cfg : ContextConfig)
    (h : toolResultContentsWithin msgs
      (min cfg.maxToolResultChars HARD_MAX_TOOL_RESULT_CHARS) = true) :
    prepareContext (prepareContext msgs cfg) cfg = prepareContext msgs cfg := by
  set cap := min cfg.maxToolResultChars HARD_MAX_TOOL_RESULT_CHARS with hcap
  set L := limitHistoryTurns msgs cfg.maxHistoryTurns with hL
  have hLsub : ∀ m ∈ L, m ∈ msgs := by
    rw [hL]
    unfold limitHistoryTurns
    by_cases hk : cfg.maxHistoryTurns ≤ 0
    · rw [if_pos hk]
      exact fun m hm => hm
    · rw [if_neg hk]
      exact fun m hm => (limitAux_suffix cfg.maxHistoryTurns msgs).subset hm
  have hwL : toolResultContentsWithin L cap = true := within_of_subset hLsub h
  have hT : truncateToolResults L cap = L := truncateToolResults_id hwL
  have hrepr : prepareContext msgs cfg = removeOrphanedToolResults L := by
    rw [prepareContext_eq, ← hcap, ← hL, hT]
  have hwOut : toolResultContentsWithin (prepareContext msgs cfg) cap = true := by
    rw [hrepr]
    exact within_filterMap_keep hwL
  have hcount1 : ¬cfg.maxHistoryTurns ≤ 0 →
      (countUserMessages (prepareContext msgs cfg) : Int) ≤ cfg.maxHistoryTurns := by
    intro hk
    have h1 : countUserMessages (prepareContext msgs cfg) ≤ countUserMessages L := by
      rw [hrepr]
      exact countUsers_filterMap_keep_le _ _
    have h2 : (countUserMessages L : Int) ≤ cfg.maxHistoryTurns := by
      rw [hL]
      unfold limitHistoryTurns
      rw [if_neg hk]
      exact limitAux_count (by omega) msgs
    omega
  have hstage1 : limitHistoryTurns (prepareContext msgs cfg) cfg.maxHistoryTurns
      = prepareContext msgs cfg := by
    unfold limitHistoryTurns
    by_cases hk : cfg.maxHistoryTurns ≤ 0
    · rw [if_pos hk]
    · rw [if_neg hk]
      exact limitAux_eq_self (hcount1 hk)
  have hstage2 : truncateToolResults (prepareContext msgs cfg) cap
      = prepareContext msgs cfg :=
    truncateToolResults_id hwOut
  rw [prepareContext_eq (prepareContext msgs cfg) cfg, ← hcap, hstage1, hstage2, hrepr]
  exact removeOrphaned_idem L

/-- Witness for the amended C4 theorem: with a cap large enough for the
60-character tool_result, preparation is idempotent on the same transcript. -/
theorem prepare_context_idempotent_witness :
    prepareContext (prepareContext c4msgs ⟨0, 400000⟩) ⟨0, 400000⟩
      = prepareContext c4msgs ⟨0, 400000⟩ :=
  prepare_context_idempotent_within c4msgs ⟨0, 400000⟩ (by decide)



/-! ## Adapter terminal-event lemmas -/

theorem oaiStep_cases (st : OAIState) (c : OAIChunk) :
    ((oaiStep st c).stopReason = st.stopReason ∨ (oaiStep st c).stopReason = "tool_use" ∨
      (oaiStep st c).stopReason = "end_turn") ∧
    ((oaiStep st c).events = st.events ∨
      ∃ t, (oaiStep st c).events = st.events ++ [StreamEvent.text t]) := by
  cases hc : c.delta with
  | none =>
    simp [oaiStep, hc]
  | some d =>
    simp only [oaiStep, hc]
    cases hdc : d.content with
    | none =>
      simp only [hdc]
      constructor
      · split <;> simp
      · split <;> simp
    | some t =>
      by_cases ht : t = ""
      · simp only [hdc, if_pos ht]
        constructor
        · split <;> simp
        · split <;> simp
      · simp only [hdc, if_neg ht]
        constructor
        · split <;> simp
        · split <;> exact Or.inr ⟨t, rfl⟩

theorem openaiStream_eq (parseArgs : String → Option ToolInput) (chunks : List OAIChunk) :
    openaiStream parseArgs chunks
      = (chunks.foldl oaiStep ⟨[], [], "end_turn"⟩).events ++
        ((chunks.foldl oaiStep ⟨[], [], "end_turn"⟩).toolCalls.map fun p =>
          StreamEvent.tool_use p.2.id p.2.name ((parseArgs p.2.args).getD [])) ++
        [.message_stop (chunks.foldl oaiStep ⟨[], [], "end_turn"⟩).stopReason] := rfl

theorem oaiFold_inv (chunks : List OAIChunk) (st : OAIState)
    (hs : st.stopReason = "end_turn" ∨ st.stopReason = "tool_use")
    (he : st.events.countP isStopEvent = 0) :
    ((chunks.foldl oaiStep st).stopReason = "end_turn" ∨
      (chunks.foldl oaiStep st).stopReason = "tool_use") ∧
    (chunks.foldl oaiStep st).events.countP isStopEvent = 0 := by
  induction chunks generalizing st with
  | nil => exact ⟨hs, he⟩
  | cons c rest ih =>
    apply ih
    · rcases (oaiStep_cases st c).1 with h | h | h
      · rw [h]
        exact hs
      · exact Or.inr h
      · exact Or.inl h
    · rcases (oaiStep_cases st c).2 with h | ⟨t, h⟩
      · rw [h]
        exact he
      · rw [h, List.countP_append, he]
        rfl

/-- Claim C6 counterexample: the Anthropic adapter forwards an upstream
stop reason such as max_tokens verbatim; it is not normalized to end_turn
or tool_use. -/
theorem adapters_terminal_counterexample :
    anthropicStream [] ⟨[], some "max_tokens"⟩ = [.message_stop "max_tokens"] ∧
    ¬(("max_tokens" : String) = "end_turn" ∨ ("max_tokens" : String) = "tool_use") := by
  exact ⟨rfl, by decide⟩

/-- Claim C6 (amended): each adapter's stream emits exactly one terminal
message_stop event, and it is the final event.  The OpenAI adapter
normalizes its stop reason to end_turn or tool_use; the Anthropic adapter
forwards the upstream stop reason unchanged, substituting end_turn only for
a null upstream reason. -/
theorem adapters_terminal_event (deltas : List AnthDelta) (finalMessage : AnthFinal)
    (parseArgs : String → Option ToolInput) (chunks : List OAIChunk) :
    ((anthropicStream deltas finalMessage).countP isStopEvent = 1 ∧
      (anthropicStream deltas finalMessage).getLast?
        = some (.message_stop (finalMessage.stop_reason.getD "end_turn"))) ∧
    ((openaiStream parseArgs chunks).countP isStopEvent = 1 ∧
      ∃ r, (openaiStream parseArgs chunks).getLast? = some (.message_stop r) ∧
        (r = "end_turn" ∨ r = "tool_use")) := by
  constructor
  · constructor
    · unfold anthropicStream
      rw [List.countP_append, List.countP_append]
      have h1 : (deltas.filterMap fun d =>
          match d with
          | AnthDelta.text_delta t => some (StreamEvent.text t)
          | _ => none).countP isStopEvent = 0 := by
        rw [List.countP_eq_zero]
        intro e he
        obtain ⟨d, _, hd⟩ := List.mem_filterMap.mp he
        cases d with
        | text_delta t =>
          obtain rfl := Option.some.inj hd
          simp [isStopEvent]
        | input_json_delta p => exact absurd hd (by simp)
        | otherDelta => exact absurd hd (by simp)
      have h2 : (finalMessage.content.filterMap fun b =>
          match b with
          | ContentBlock.tool_use id name input => some (StreamEvent.tool_use id name input)
          | _ => none).countP isStopEvent = 0 := by
        rw [List.countP_eq_zero]
        intro e he
        obtain ⟨b, _, hb⟩ := List.mem_filterMap.mp he
        cases b with
        | text t => exact absurd hb (by simp)
        | tool_use id n i =>
          obtain rfl := Option.some.inj hb
          simp [isStopEvent]
        | tool_result tid c => exact absurd hb (by simp)
      rw [h1, h2]
      rfl
    · unfold anthropicStream
      exact List.getLast?_concat _
  · have hinv := oaiFold_inv chunks ⟨[], [], "end_turn"⟩ (Or.inl rfl) rfl
    constructor
    · rw [openaiStream_eq]
      rw [List.countP_append, List.countP_append]
      have h2 : ((chunks.foldl oaiStep ⟨[], [], "end_turn"⟩).toolCalls.map fun p =>
          StreamEvent.tool_use p.2.id p.2.name ((parseArgs p.2.args).getD [])).countP
            isStopEvent = 0 := by
        rw [List.countP_eq_zero]
        intro e he
        obtain ⟨p, _, hp⟩ := List.mem_map.mp he
        rw [← hp]
        simp [isStopEvent]
      rw [hinv.2, h2]
      rfl
    · refine ⟨(chunks.foldl oaiStep ⟨[], [], "end_turn"⟩).stopReason, ?_, ?_⟩
      · rw [openaiStream_eq]
        exact List.getLast?_concat _
      · rcases hinv.1 with h | h
        · exact Or.inl h
        · exact Or.inr h



/-! ## Journal codec round-trip lemmas -/

theorem takeWhile_hash (n : Nat) (r : List Char) :
    (List.replicate n '#' ++ ';' :: r).takeWhile (fun c => c = '#') = List.replicate n '#' := by
  induction n with
  | zero => simp [List.takeWhile_cons]
  | succ k ih => simp [List.replicate_succ, List.takeWhile_cons, ih]

theorem drop_hash (n : Nat) (r : List Char) :
    (List.replicate n '#' ++ ';' :: r).drop n = ';' :: r := by
  have h := List.drop_left (List.replicate n '#') (';' :: r)
  rwa [List.length_replicate] at h

theorem encStrC_append (s : String) (tail : List Char) :
    encStrC s ++ tail = List.replicate s.length '#' ++ ';' :: (s.data ++ tail) := by
  simp [encStrC]

theorem decStrC_enc (s : String) (tail : List Char) :
    decStrC (encStrC s ++ tail) = some (s, tail) := by
  rw [encStrC_append]
  simp only [decStrC]
  rw [takeWhile_hash, List.length_replicate, drop_hash]
  have hlen : s.length ≤ (s.data ++ tail).length := by
    rw [List.length_append]
    show s.data.length ≤ _
    omega
  simp only [if_pos hlen]
  have htake : (s.data ++ tail).take s.length = s.data := List.take_left s.data tail
  have hdrop : (s.data ++ tail).drop s.length = tail := List.drop_left s.data tail
  rw [htake, hdrop]

theorem encNatC_append (n : Nat) (tail : List Char) :
    encNatC n ++ tail = List.replicate n '#' ++ ';' :: tail := by
  simp [encNatC]

theorem decNatC_enc (n : Nat) (tail : List Char) :
    decNatC (encNatC n ++ tail) = some (n, tail) := by
  rw [encNatC_append]
  simp only [decNatC]
  rw [takeWhile_hash, List.length_replicate, drop_hash]
  rfl

theorem decNatC_enc_nil (n : Nat) : decNatC (encNatC n) = some (n, []) := by
  have h := decNatC_enc n []
  rwa [List.append_nil] at h

theorem decPairsC_enc (ps : List (String × String)) (tail : List Char) :
    decPairsC ps.length ((ps.map encPairC).flatten ++ tail) = some (ps, tail) := by
  induction ps generalizing tail with
  | nil => rfl
  | cons p rest ih =>
    show decPairsC (rest.length + 1) ((encPairC p :: rest.map encPairC).flatten ++ tail)
      = some (p :: rest, tail)
    have harr : (encPairC p :: rest.map encPairC).flatten ++ tail
        = encStrC p.1 ++ (encStrC p.2 ++ ((rest.map encPairC).flatten ++ tail)) := by
      simp [encPairC, List.flatten_cons]
    rw [harr]
    simp only [decPairsC, decStrC_enc, ih]

theorem decInputC_enc (i : ToolInput) (tail : List Char) :
    decInputC (encInputC i ++ tail) = some (i, tail) := by
  show decInputC ((encNatC (List.length i) ++ (List.map encPairC i).flatten) ++ tail)
    = some (i, tail)
  rw [List.append_assoc]
  simp only [decInputC, decNatC_enc]
  exact decPairsC_enc i tail

theorem decBlockC_enc (b : ContentBlock) (tail : List Char) :
    decBlockC (encBlockC b ++ tail) = some (b, tail) := by
  cases b with
  | text t =>
    show decBlockC ('T' :: (encStrC t ++ tail)) = _
    simp [decBlockC, decStrC_enc]
  | tool_use id n i =>
    show decBlockC ('U' :: ((encStrC id ++ encStrC n ++ encInputC i) ++ tail)) = _
    rw [List.append_assoc, List.append_assoc]
    simp [decBlockC, decStrC_enc, decInputC_enc]
  | tool_result tid c =>
    show decBlockC ('R' :: ((encStrC tid ++ encStrC c) ++ tail)) = _
    rw [List.append_assoc]
    simp [decBlockC, decStrC_enc]

theorem decBlocksC_enc (bs : List ContentBlock) (tail : List Char) :
    decBlocksC bs.length ((bs.map encBlockC).flatten ++ tail) = some (bs, tail) := by
  induction bs generalizing tail with
  | nil => rfl
  | cons b rest ih =>
    show decBlocksC (rest.length + 1) ((encBlockC b :: rest.map encBlockC).flatten ++ tail)
      = some (b :: rest, tail)
    have harr : (encBlockC b :: rest.map encBlockC).flatten ++ tail
        = encBlockC b ++ ((rest.map encBlockC).flatten ++ tail) := by
      simp [List.flatten_cons]
    rw [harr]
    simp only [decBlocksC, decBlockC_enc, ih]

theorem decContentC_enc (c : MContent) (tail : List Char) :
    decContentC (encContentC c ++ tail) = some (c, tail) := by
  cases c with
  | str s =>
    show decContentC ('S' :: (encStrC s ++ tail)) = _
    simp [decContentC, decStrC_enc]
  | blocks bs =>
    show decContentC ('B' :: ((encNatC bs.length ++ (bs.map encBlockC).flatten) ++ tail)) = _
    rw [List.append_assoc]
    simp [decContentC, decNatC_enc, decBlocksC_enc]

theorem decRoleC_enc (r : Role) : decRoleC (encRoleC r) = some r := by
  cases r <;> rfl

theorem decEntry_enc (e : JournalEntry) : decEntry (encEntry e) = some e := by
  cases e with
  | session id ts =>
    show decEntry (String.mk ('J' :: (encStrC id ++ encNatC ts))) = _
    simp [decEntry, decStrC_enc, decNatC_enc_nil]
  | message r c ts =>
    show decEntry (String.mk ('M' :: encRoleC r :: (encContentC c ++ encNatC ts))) = _
    simp [decEntry, decRoleC_enc, decContentC_enc, decNatC_enc_nil]

theorem encEntry_not_blank (e : JournalEntry) : isBlank (encEntry e) = false := by
  cases e with
  | session id ts =>
    show isBlank (String.mk ('J' :: (encStrC id ++ encNatC ts))) = false
    simp [isBlank]
  | message r c ts =>
    show isBlank (String.mk ('M' :: encRoleC r :: (encContentC c ++ encNatC ts))) = false
    simp [isBlank]

theorem entryToMessage_message (r : Role) (c : MContent) (ts : Nat) :
    entryToMessage (.message r c ts) = some ⟨r, c⟩ := rfl

theorem entryToMessage_session (id : String) (ts : Nat) :
    entryToMessage (.session id ts) = none := rfl

theorem loadMessages_enc_msgs (enc : JournalEntry → String)
    (dec : String → Option JournalEntry)
    (hinv : ∀ e, dec (enc e) = some e) (hnb : ∀ e, isBlank (enc e) = false)
    (appends : List (Message × Nat)) :
    loadMessages dec (appends.map fun p => enc (.message p.1.role p.1.content p.2))
      = appends.map Prod.fst := by
  induction appends with
  | nil => rfl
  | cons p rest ih =>
    simp only [List.map_cons, loadMessages, List.filterMap_cons, hnb, hinv,
      entryToMessage_message, Bool.false_eq_true, if_false]
    simp only [loadMessages] at ih
    rw [ih]

theorem loadMessages_skip (dec : String → Option JournalEntry) (pre post : List String)
    (g : String) (hg : dec g = none) :
    loadMessages dec (pre ++ g :: post) = loadMessages dec (pre ++ post) := by
  by_cases hb : isBlank g
  · simp [loadMessages, List.filterMap_append, List.filterMap_cons, hb]
  · simp [loadMessages, List.filterMap_append, List.filterMap_cons, hb, hg]

/-- Claim C8: for any line codec that decoding inverts (the platform JSON
codec abstracted), appending messages to a fresh session and loading the
stored lines reconstructs the identical ordered message list, nested
content blocks included (the header line is skipped as a non-message
entry); and a line that fails to decode is silently skipped, leaving the
loaded list unchanged. -/
theorem session_round_trip (enc : JournalEntry → String)
    (dec : String → Option JournalEntry)
    (hinv : ∀ e, dec (enc e) = some e)
    (hnb : ∀ e, isBlank (enc e) = false)
    (sid : String) (createdAt : Nat) (appends : List (Message × Nat)) :
    loadMessages dec (sessionLines enc sid createdAt appends) = appends.map Prod.fst ∧
    (∀ pre g post, dec g = none →
      loadMessages dec (pre ++ g :: post) = loadMessages dec (pre ++ post)) := by
  constructor
  · show loadMessages dec (enc (.session sid createdAt) ::
      appends.map fun p => enc (.message p.1.role p.1.content p.2)) = _
    simp only [loadMessages, List.filterMap_cons, hnb, hinv, entryToMessage_session,
      Bool.false_eq_true, if_false]
    have h := loadMessages_enc_msgs enc dec hinv hnb appends
    simp only [loadMessages] at h
    rw [h]
  · exact fun pre g post hg => loadMessages_skip dec pre post g hg

/-- Witness for the C8 round-trip theorem: the concrete length-prefixed
codec, a two-message transcript with nested blocks, and one undecodable
line. -/
theorem session_round_trip_witness :
    loadMessages decEntry (sessionLines encEntry "s" 5
        [(⟨.user, .str "hi"⟩, 6),
         (⟨.assistant, .blocks [.tool_use "i" "t" [("k", "v")], .text "x"]⟩, 7)])
      = [⟨.user, .str "hi"⟩,
         ⟨.assistant, .blocks [.tool_use "i" "t" [("k", "v")], .text "x"]⟩] ∧
    loadMessages decEntry (["?junk"] ++ "?bad" :: ["?junk2"])
      = loadMessages decEntry (["?junk"] ++ ["?junk2"]) :=
  ⟨(session_round_trip encEntry decEntry decEntry_enc encEntry_not_blank "s" 5
      [(⟨.user, .str "hi"⟩, 6),
       (⟨.assistant, .blocks [.tool_use "i" "t" [("k", "v")], .text "x"]⟩, 7)]).1,
   (session_round_trip encEntry decEntry decEntry_enc encEntry_not_blank "s" 5 []).2
     ["?junk"] "?bad" ["?junk2"] (by rfl)⟩

end SlimClaw
